import Mathlib

set_option linter.unusedSectionVars false

/-!
Verification development for the duplicate-photo grouping engine of
`similar-photos-cleaner` (`src/photocleaner.py`).

The Python source is shallowly embedded: images are abstract values carrying
a distance function (the perceptual-hash Hamming distance in the program),
scores are exact rationals, the mutable `processed` set is explicit state
threaded as a list (only membership in it matters), and fallible operations
return `Option`.
-/

namespace PhotoCleaner

variable {α : Type} [DecidableEq α]

/-- Hamming distance between two fingerprints, as `imagehash` computes
`hash1 - hash2`: the number of positions where the equal-length bit
sequences differ. -/
def hammingDistance (x y : List Bool) : Nat :=
  ((x.zip y).filter (fun p => p.1 != p.2)).length

/-- Inner scan of `PhotoCleaner.group_similar_images`
(src/photocleaner.py lines 522-531): given the anchor `a`, walk the images
after the anchor in enumeration order; a still-unprocessed image within
`threshold` of the anchor joins the group and is marked processed.  Returns
the joined images (in scan order) and the final processed list. -/
def innerScan (d : α → α → Nat) (threshold : Nat) (a : α) :
    List α → List α → List α × List α
  | [], processed => ([], processed)
  | b :: rest, processed =>
    if b ∈ processed then innerScan d threshold a rest processed
    else if d a b ≤ threshold then
      let r := innerScan d threshold a rest (b :: processed)
      (b :: r.1, r.2)
    else innerScan d threshold a rest processed

/-- Outer loop of `PhotoCleaner.group_similar_images`
(src/photocleaner.py lines 514-535): each still-unprocessed image starts a
new group seeded with itself; only groups with more than one member are
emitted. -/
def groupAux (d : α → α → Nat) (threshold : Nat) :
    List α → List α → List (List α)
  | [], _ => []
  | a :: rest, processed =>
    if a ∈ processed then groupAux d threshold rest processed
    else
      let r := innerScan d threshold a rest (a :: processed)
      if 1 < (a :: r.1).length then (a :: r.1) :: groupAux d threshold rest r.2
      else groupAux d threshold rest r.2

/-- `PhotoCleaner.group_similar_images` (src/photocleaner.py lines 495-538)
run on the list of successfully hashed images in enumeration order.  The
hash table keys are distinct, so the image list is duplicate-free; `d`
abstracts the Hamming distance between the images' fingerprints. -/
def group_similar_images (d : α → α → Nat) (threshold : Nat) (l : List α) :
    List (List α) :=
  groupAux d threshold l []

/-- The grouping pass as §4.3 of the spec words it: each unprocessed image
`A` anchors a group whose members are exactly the later still-unprocessed
images within `threshold` of `A` — the distance is measured to the anchor
only, with no transitive extension via members — all of which are marked
processed; only groups with at least two members are emitted. -/
def groupSpecAux (d : α → α → Nat) (threshold : Nat) :
    List α → List α → List (List α)
  | [], _ => []
  | a :: rest, processed =>
    if a ∈ processed then groupSpecAux d threshold rest processed
    else
      let joined := rest.filter (fun b => decide (b ∉ processed ∧ d a b ≤ threshold))
      let processed' := joined.reverse ++ a :: processed
      if 2 ≤ (a :: joined).length then
        (a :: joined) :: groupSpecAux d threshold rest processed'
      else groupSpecAux d threshold rest processed'

/-- Spec-worded grouping pass over the whole image list. -/
def groupSpec (d : α → α → Nat) (threshold : Nat) (l : List α) : List (List α) :=
  groupSpecAux d threshold l []

/-- Two images fall in a common emitted group. -/
def inSameGroup (groups : List (List α)) (x y : α) : Prop :=
  ∃ g ∈ groups, x ∈ g ∧ y ∈ g

instance (groups : List (List α)) (x y : α) : Decidable (inSameGroup groups x y) := by
  unfold inSameGroup; infer_instance

theorem innerScan_eq (d : α → α → Nat) (t : Nat) (a : α) :
    ∀ (rest processed : List α), rest.Nodup →
      innerScan d t a rest processed =
        (rest.filter (fun b => decide (b ∉ processed ∧ d a b ≤ t)),
         (rest.filter (fun b => decide (b ∉ processed ∧ d a b ≤ t))).reverse
           ++ processed) := by
  intro rest
  induction rest with
  | nil => intro processed _; rfl
  | cons b rest ih =>
    intro processed hnd
    rw [List.nodup_cons] at hnd
    obtain ⟨hb, hrest⟩ := hnd
    by_cases hmem : b ∈ processed
    · have hpb : (decide (b ∉ processed ∧ d a b ≤ t)) = false := by
        simp [hmem]
      simp only [innerScan, if_pos hmem, List.filter_cons, hpb, if_neg,
        Bool.false_eq_true, not_false_iff]
      exact ih processed hrest
    · by_cases hdist : d a b ≤ t
      · have hpb : (decide (b ∉ processed ∧ d a b ≤ t)) = true := by
          simp [hmem, hdist]
        have hcongr : rest.filter (fun c => decide (c ∉ b :: processed ∧ d a c ≤ t))
            = rest.filter (fun c => decide (c ∉ processed ∧ d a c ≤ t)) := by
          apply List.filter_congr
          intro c hc
          have hcb : c ≠ b := fun h => hb (h ▸ hc)
          simp [List.mem_cons, hcb]
        simp only [innerScan, if_neg hmem, if_pos hdist]
        rw [ih (b :: processed) hrest, hcongr]
        simp only [List.filter_cons, hpb, if_pos, List.reverse_cons,
          List.append_assoc, List.singleton_append]
      · have hpb : (decide (b ∉ processed ∧ d a b ≤ t)) = false := by
          simp [hdist]
        simp only [innerScan, if_neg hmem, if_neg hdist, List.filter_cons, hpb,
          if_neg, Bool.false_eq_true, not_false_iff]
        exact ih processed hrest

theorem groupAux_eq_spec (d : α → α → Nat) (t : Nat) :
    ∀ (items processed : List α), items.Nodup →
      groupAux d t items processed = groupSpecAux d t items processed := by
  intro items
  induction items with
  | nil => intro processed _; rfl
  | cons a rest ih =>
    intro processed hnd
    rw [List.nodup_cons] at hnd
    obtain ⟨ha, hrest⟩ := hnd
    by_cases hmem : a ∈ processed
    · simp only [groupAux, groupSpecAux, if_pos hmem]
      exact ih processed hrest
    · have hcongr : rest.filter (fun b => decide (b ∉ a :: processed ∧ d a b ≤ t))
          = rest.filter (fun b => decide (b ∉ processed ∧ d a b ≤ t)) := by
        apply List.filter_congr
        intro c hc
        have hca : c ≠ a := fun h => ha (h ▸ hc)
        simp [List.mem_cons, hca]
      simp only [groupAux, groupSpecAux, if_neg hmem,
        innerScan_eq d t a rest (a :: processed) hrest, hcongr]
      have hlen : (1 < (a :: rest.filter
            (fun b => decide (b ∉ processed ∧ d a b ≤ t))).length)
          ↔ (2 ≤ (a :: rest.filter
            (fun b => decide (b ∉ processed ∧ d a b ≤ t))).length) := Iff.rfl
      by_cases hc2 : 2 ≤ (a :: rest.filter
          (fun b => decide (b ∉ processed ∧ d a b ≤ t))).length
      · rw [if_pos (hlen.mpr hc2), if_pos hc2, ih _ hrest]
      · rw [if_neg (fun h => hc2 (hlen.mp h)), if_neg hc2, ih _ hrest]

theorem groupAux_two_le (d : α → α → Nat) (t : Nat) :
    ∀ (items processed : List α) (g : List α),
      g ∈ groupAux d t items processed → 2 ≤ g.length := by
  intro items
  induction items with
  | nil => intro processed g hg; simp [groupAux] at hg
  | cons a rest ih =>
    intro processed g hg
    by_cases hmem : a ∈ processed
    · rw [groupAux, if_pos hmem] at hg
      exact ih processed g hg
    · rw [groupAux, if_neg hmem] at hg
      by_cases hlen : 1 < (a :: (innerScan d t a rest (a :: processed)).1).length
      · rw [if_pos hlen] at hg
        rcases List.mem_cons.mp hg with h | h
        · exact h ▸ hlen
        · exact ih _ g h
      · rw [if_neg hlen] at hg
        exact ih _ g hg

/-- Keep/delete actions recorded in the decision map built by
`load_decisions` (src/photocleaner.py lines 151-159). -/
inductive DecisionAction where
  | keep
  | delete
deriving DecidableEq

/-- Stable insertion step for sorting by score in descending order; on equal
scores the earlier element stays first, matching Python's stable
`sorted(..., reverse=True)`. -/
def insertDesc (score : α → ℚ) (x : α) : List α → List α
  | [] => [x]
  | y :: l => if score x < score y then y :: insertDesc score x l else x :: y :: l

/-- Stable descending sort by score:
`sorted(scores.items(), key=lambda x: score, reverse=True)` at
src/photocleaner.py line 590. -/
def sortDesc (score : α → ℚ) : List α → List α
  | [] => []
  | x :: l => insertDesc score x (sortDesc score l)

/-- Automatic (scoring) branch of `PhotoCleaner.select_best_image`
(src/photocleaner.py lines 582-595): the group is sorted by score
descending, the head is kept, the rest are deleted; `none` models the
IndexError that `sorted_images[0]` would raise on an empty group. -/
def selectByScore (score : α → ℚ) (g : List α) : Option (α × List α) :=
  match sortDesc score g with
  | [] => none
  | b :: rest => some (b, rest)

/-- `PhotoCleaner.select_best_image` (src/photocleaner.py lines 540-595).
`dm` is the path→action decision map, `some` exactly when custom decisions
are in effect (an absent lookup models a group member missing from the
file).  The boolean flag records whether the no-keep warning of lines
561-563 was printed before falling back to scoring. -/
def select_best_image (score : α → ℚ) (dm : Option (α → Option DecisionAction))
    (g : List α) : Option (α × List α) × Bool :=
  match dm with
  | none => (selectByScore score g, false)
  | some m =>
    let keeps := g.filter (fun x => decide (m x = some DecisionAction.keep))
    let dels := g.filter (fun x => decide (¬ m x = some DecisionAction.keep))
    match keeps with
    | [] => (selectByScore score g, true)
    | k :: _ => (some (k, dels), false)

theorem insertDesc_perm (score : α → ℚ) (x : α) (l : List α) :
    List.Perm (insertDesc score x l) (x :: l) := by
  induction l with
  | nil => rfl
  | cons y l ih =>
    rw [insertDesc]
    by_cases h : score x < score y
    · rw [if_pos h]
      exact (ih.cons y).trans (List.Perm.swap x y l)
    · rw [if_neg h]

theorem sortDesc_perm (score : α → ℚ) (l : List α) :
    List.Perm (sortDesc score l) l := by
  induction l with
  | nil => rfl
  | cons x l ih => exact (insertDesc_perm score x (sortDesc score l)).trans (ih.cons x)

theorem sortDesc_head_spec (score : α → ℚ) :
    ∀ (g : List α) (b : α) (t : List α), sortDesc score g = b :: t →
      (∀ m ∈ g, score m ≤ score b) ∧
      ∃ u v, g = u ++ b :: v ∧ ∀ m ∈ u, score m < score b := by
  intro g
  induction g with
  | nil => intro b t h; simp [sortDesc] at h
  | cons x xs ih =>
    intro b t h
    rw [sortDesc] at h
    cases hxs : sortDesc score xs with
    | nil =>
      have hp := sortDesc_perm score xs
      rw [hxs] at hp
      have hxsnil : xs = [] := hp.symm.eq_nil
      rw [hxs] at h
      simp only [insertDesc, List.cons.injEq] at h
      obtain ⟨hb, -⟩ := h
      subst hb hxsnil
      refine ⟨?_, [], [], rfl, ?_⟩
      · intro m hm
        rcases List.mem_singleton.mp hm with rfl
        exact le_refl _
      · intro m hm; simp at hm
    | cons b' t' =>
      rw [hxs] at h
      obtain ⟨hmax, u, v, hdecomp, hlt⟩ := ih b' t' hxs
      rw [insertDesc] at h
      by_cases hxb : score x < score b'
      · rw [if_pos hxb, List.cons.injEq] at h
        obtain ⟨hb, -⟩ := h
        subst hb
        refine ⟨?_, x :: u, v, by simp [hdecomp], ?_⟩
        · intro m hm
          rcases List.mem_cons.mp hm with rfl | hm
          · exact le_of_lt hxb
          · exact hmax m hm
        · intro m hm
          rcases List.mem_cons.mp hm with rfl | hm
          · exact hxb
          · exact hlt m hm
      · rw [if_neg hxb, List.cons.injEq] at h
        obtain ⟨hb, -⟩ := h
        subst hb
        refine ⟨?_, [], xs, rfl, by intro m hm; simp at hm⟩
        intro m hm
        rcases List.mem_cons.mp hm with rfl | hm
        · exact le_refl _
        · exact le_trans (hmax m hm) (le_of_not_lt hxb)

theorem insertDesc_ne_nil (score : α → ℚ) (x : α) (l : List α) :
    insertDesc score x l ≠ [] := by
  cases l with
  | nil => simp [insertDesc]
  | cons y l =>
    rw [insertDesc]
    by_cases h : score x < score y
    · rw [if_pos h]; simp
    · rw [if_neg h]; simp

theorem selectByScore_isSome (score : α → ℚ) (g : List α) (h : g ≠ []) :
    ∃ b rest, selectByScore score g = some (b, rest) := by
  cases g with
  | nil => exact absurd rfl h
  | cons x xs =>
    rw [selectByScore]
    cases hs : sortDesc score (x :: xs) with
    | nil => exact absurd hs (by rw [sortDesc]; exact insertDesc_ne_nil score x _)
    | cons b rest => exact ⟨b, rest, rfl⟩

/-- Decoded image data as `PhotoAnalyzer.compute_quality_score` sees it:
dimensions, the grayscale pixel array (`np.array(img.convert('L'))`,
row-major, values read as exact rationals), and the file size in bytes. -/
structure ImageData where
  width : Nat
  height : Nat
  pixel : Nat → Nat → ℚ
  fileSize : Nat

/-- `scipy.ndimage`'s default `reflect` boundary handling for out-of-range
indices (half-sample symmetry); the 3×3 kernel reaches at most one step
outside the array. -/
def reflectIdx (n : Nat) (i : Int) : Nat :=
  if i < 0 then (-i - 1).toNat
  else if i < (n : Int) then i.toNat
  else (2 * (n : Int) - 1 - i).toNat

/-- Pixel lookup with reflected boundary, row index first. -/
def px (img : ImageData) (i j : Int) : ℚ :=
  img.pixel (reflectIdx img.height i) (reflectIdx img.width j)

/-- One entry of
`scipy.ndimage.convolve(array, [[0,1,0],[1,-4,1],[0,1,0]])`
(src/photocleaner.py lines 80-84); the kernel is symmetric, so the
convolution coincides with the correlation written out here. -/
def lapAt (img : ImageData) (i j : Nat) : ℚ :=
  px img ((i : Int) - 1) (j : Int) + px img (i : Int) ((j : Int) - 1)
    - 4 * px img (i : Int) (j : Int)
    + px img (i : Int) ((j : Int) + 1) + px img ((i : Int) + 1) (j : Int)

/-- The convolved array, flattened row-major. -/
def lapList (img : ImageData) : List ℚ :=
  ((List.range img.height).map (fun i =>
    (List.range img.width).map (fun j => lapAt img i j))).flatten

/-- `np.mean` of a flattened array. -/
def listMean (l : List ℚ) : ℚ := l.sum / l.length

/-- `np.var` of a flattened array: the population variance, i.e. the mean
squared deviation from the mean. -/
def listVar (l : List ℚ) : ℚ :=
  ((l.map (fun x => (x - listMean l) ^ 2)).sum) / l.length

/-- The metrics record `compute_quality_score` returns
(src/photocleaner.py lines 97-110). -/
structure QualityMetrics where
  resolution : ℚ
  sharpness : ℚ
  file_size : ℚ
  score : ℚ
deriving DecidableEq

/-- `PhotoAnalyzer.compute_quality_score` (src/photocleaner.py lines
66-110): `none` models any decode/IO failure (the `except` branch, which
returns the all-zero record); on success every metric is computed from the
decoded image in exact rational arithmetic. -/
def compute_quality_score (inp : Option ImageData) : QualityMetrics :=
  match inp with
  | none => ⟨0, 0, 0, 0⟩
  | some img =>
    let megapixels : ℚ := (img.width * img.height : ℚ) / 1000000
    let sharpness : ℚ := listVar (lapList img)
    let file_size : ℚ := (img.fileSize : ℚ) / (1024 * 1024)
    let normalized_sharpness : ℚ := min (sharpness / 1000) 10
    let overall_score : ℚ :=
      megapixels * 0.7 + normalized_sharpness * 0.25 + file_size * 0.05
    ⟨megapixels, sharpness, file_size, overall_score⟩

/-- The composite score exactly as §3 of the spec words it:
`0.7·megapixels + 0.25·min(sharpness/1000, 10) + 0.05·(file size in MB)`,
with megapixels `width·height/1,000,000`, sharpness the variance of the
Laplacian response, and MB `bytes/1024²`. -/
def specCompositeScore (img : ImageData) : ℚ :=
  0.7 * ((img.width * img.height : ℚ) / 1000000)
    + 0.25 * min (listVar (lapList img) / 1000) 10
    + 0.05 * ((img.fileSize : ℚ) / (1024 * 1024))

theorem listVar_nonneg (l : List ℚ) : 0 ≤ listVar l := by
  apply div_nonneg
  · apply List.sum_nonneg
    intro x hx
    obtain ⟨y, -, rfl⟩ := List.mem_map.mp hx
    exact sq_nonneg _
  · exact Nat.cast_nonneg _

/-- One group's entry in a parsed decisions JSON document:
`{"<group id>": {"keep": [...], "delete": [...]}}`. -/
structure GroupDecision (β : Type) where
  keep : List β
  delete : List β

/-- Outcome of reading the `--apply-decisions` file: missing, not valid
JSON, or parsed into the per-group keep/delete lists in document order. -/
inductive FileRead (β : Type) where
  | missing
  | unparsable
  | parsed (d : List (String × GroupDecision β))

/-- `PhotoCleaner.load_decisions` (src/photocleaner.py lines 142-168): a
missing file or invalid JSON calls `sys.exit(1)`, modelled `Except.error`;
`main` (lines 966-969) likewise exits when the file does not exist. -/
def load_decisions : FileRead α → Except Unit (List (String × GroupDecision α))
  | .missing => .error ()
  | .unparsable => .error ()
  | .parsed d => .ok d

/-- All files named in the document's per-group `delete` lists, in document
order (`process_from_decisions`, src/photocleaner.py lines 180-185). -/
def files_to_delete (d : List (String × GroupDecision α)) : List α :=
  (d.map (fun g => g.2.delete)).flatten

/-- All files named in the document's per-group `keep` lists. -/
def files_to_keep (d : List (String × GroupDecision α)) : List α :=
  (d.map (fun g => g.2.keep)).flatten

/-- The delete-listed files that pass the local existence check
(`process_from_decisions`, src/photocleaner.py lines 196-208, local mode:
non-existent files are skipped with a warning). -/
def valid_files (exis : α → Bool) (d : List (String × GroupDecision α)) :
    List α :=
  (files_to_delete d).filter exis

/-- The files whose removal `process_from_decisions` (src/photocleaner.py
lines 170-281, local mode) attempts: none on a dry run (the early return at
lines 216-226), otherwise exactly the existing delete-listed files. -/
def process_from_decisions (dryRun : Bool) (exis : α → Bool)
    (d : List (String × GroupDecision α)) : List α :=
  if dryRun then [] else valid_files exis d

/-- The delete half of `select_best_image`'s answer for one group. -/
def groupDeletions (score : α → ℚ) (dm : Option (α → Option DecisionAction))
    (g : List α) : List α :=
  match (select_best_image score dm g).1 with
  | none => []
  | some r => r.2

/-- The files whose removal `PhotoCleaner.process_groups`
(src/photocleaner.py lines 605-703) attempts: per 1-based group, an
interactive run first asks for confirmation (lines 639-643, `confirm`
models the operator's answers), and a dry run never enters the deletion
loop (line 646). -/
def process_groups (score : α → ℚ) (dm : Option (α → Option DecisionAction))
    (dryRun interactive : Bool) (confirm : Nat → Bool)
    (groups : List (List α)) : List α :=
  ((groups.enum).map (fun p =>
    if interactive && !(confirm (p.1 + 1)) then []
    else if dryRun then [] else groupDeletions score dm p.2)).flatten

/-- End-of-run observable effects: whether the run exited fatally, and the
files whose deletion was attempted. -/
structure RunResult (β : Type) where
  fatal : Bool
  deleted : List β

/-- `main` plus `PhotoCleaner.run` (src/photocleaner.py lines 705-758,
966-969 and 993-1009), local mode, restricted to the effects the claims are
about.  `main` computes `dry_run = not (execute or interactive)` (line
994); a supplied decisions file is loaded in the constructor — exiting
fatally before any other action if missing or unparsable — and sends the
run down the fast path (lines 747-758), which performs no hashing, no
grouping and no scoring; otherwise the images are hashed and grouped and
`process_groups` runs with no decision map in effect. -/
def run (execute interactive : Bool) (decisionsFile : Option (FileRead α))
    (dist : α → α → Nat) (threshold : Nat) (score : α → ℚ)
    (images : List α) (exis : α → Bool) (confirm : Nat → Bool) : RunResult α :=
  let dryRun := !(execute || interactive)
  match decisionsFile with
  | some fr =>
    match load_decisions fr with
    | .error _ => ⟨true, []⟩
    | .ok d => ⟨false, process_from_decisions dryRun exis d⟩
  | none =>
    let groups := group_similar_images dist threshold images
    ⟨false, process_groups score none dryRun interactive confirm groups⟩

/-! Concrete instances used to evaluate the development on closed inputs. -/

/-- 4-bit fingerprint 0000 (hash size 2). -/
def imgA : List Bool := [false, false, false, false]

/-- 4-bit fingerprint 0011; Hamming distance 2 from `imgA`. -/
def imgB : List Bool := [false, false, true, true]

/-- 4-bit fingerprint 0111; Hamming distance 1 from `imgB` and 3 from
`imgA`. -/
def imgC : List Bool := [false, true, true, true]

/-- 4-bit fingerprint 1000; Hamming distance 1 from `imgA`. -/
def imgD : List Bool := [true, false, false, false]

/-- 4-bit fingerprint 1110; Hamming distance 3 from `imgA`. -/
def imgE : List Bool := [true, true, true, false]

/-- A decision map over numbered images: image 2 kept, image 1 deleted, all
others absent from the decision set. -/
def exampleDecisionMap : Nat → Option DecisionAction := fun n =>
  if n = 2 then some DecisionAction.keep
  else if n = 1 then some DecisionAction.delete
  else none

/-- A decision map that marks everything for deletion. -/
def deleteOnlyMap : Nat → Option DecisionAction := fun _ =>
  some DecisionAction.delete

/-- An example score function on numbered images. -/
def exampleScore : Nat → ℚ := fun n => (n : ℚ)

/-- A decisions document in which file 0 is keep-listed in group "1" and
delete-listed in group "2". -/
def overlapDoc : List (String × GroupDecision Nat) :=
  [("1", ⟨[0], []⟩), ("2", ⟨[], [0]⟩)]

/-- A trivial distance function on numbered images. -/
def distZero : Nat → Nat → Nat := fun _ _ => 0

/-! The claims. -/

/-- C1: for every image list in enumeration order (duplicate-free, as the
hash dictionary produces it) and every threshold, `group_similar_images`
returns exactly the groups of the spec's anchor-based single pass — each
still-unprocessed image starts a group joined by every later
still-unprocessed image within threshold of the anchor only, with no
transitive extension — and every emitted group has at least two members. -/
theorem grouping_matches_anchor_pass (d : α → α → Nat) (t : Nat)
    (l : List α) (h : l.Nodup) :
    group_similar_images d t l = groupSpec d t l ∧
      ∀ g ∈ group_similar_images d t l, 2 ≤ g.length :=
  ⟨groupAux_eq_spec d t l [] h, fun g hg => groupAux_two_le d t l [] g hg⟩

/-- Witness for C1 at a concrete three-image list. -/
theorem grouping_matches_anchor_pass_witness :
    ([imgA, imgB, imgC].Nodup) ∧
      (group_similar_images hammingDistance 1 [imgA, imgB, imgC]
          = groupSpec hammingDistance 1 [imgA, imgB, imgC] ∧
        ∀ g ∈ group_similar_images hammingDistance 1 [imgA, imgB, imgC],
          2 ≤ g.length) :=
  ⟨by decide,
    grouping_matches_anchor_pass hammingDistance 1 [imgA, imgB, imgC] (by decide)⟩

/-- C2 fails on the code: with fingerprints 0000, 0011, 0111 in that order,
the second and third images share a group at threshold 1 but not at
threshold 2 — at the looser threshold the first image captures the second
and the third is dropped as a singleton. -/
theorem threshold_monotonicity_counterexample :
    (1 : Nat) < 2 ∧
      inSameGroup (group_similar_images hammingDistance 1 [imgA, imgB, imgC])
        imgB imgC ∧
      ¬ inSameGroup (group_similar_images hammingDistance 2 [imgA, imgB, imgC])
        imgB imgC := by
  decide

/-- The first image of the list always anchors the first scan, and its
group, when emitted, consists of the later images within threshold of it. -/
theorem group_first_anchor (d : α → α → Nat) (t : Nat) (x : α)
    (rest : List α) (hnd : (x :: rest).Nodup)
    (hne : rest.filter (fun b => decide (d x b ≤ t)) ≠ []) :
    ∃ gs, group_similar_images d t (x :: rest)
        = (x :: rest.filter (fun b => decide (d x b ≤ t))) :: gs := by
  rw [List.nodup_cons] at hnd
  obtain ⟨hx, hrest⟩ := hnd
  have hfec : rest.filter (fun b => decide (b ∉ [x] ∧ d x b ≤ t))
      = rest.filter (fun b => decide (d x b ≤ t)) := by
    apply List.filter_congr
    intro c hc
    have hcx : c ≠ x := fun h => hx (h ▸ hc)
    simp [hcx]
  have hlen : 1 < (x :: rest.filter (fun b => decide (d x b ≤ t))).length := by
    have := List.length_pos.mpr hne
    simp only [List.length_cons]
    omega
  refine ⟨groupAux d t rest
      ((rest.filter (fun b => decide (d x b ≤ t))).reverse ++ [x]), ?_⟩
  unfold group_similar_images
  rw [groupAux, if_neg (List.not_mem_nil x),
    innerScan_eq d t x rest [x] hrest, hfec]
  simp only [if_pos hlen]

/-- C2 (amended): threshold monotonicity holds for the group anchored at
the first image of the enumeration — for `t1 ≤ t2`, if the first image's
group is emitted at `t1` then it is emitted at `t2` and contains the `t1`
group as a sublist; pairs grouped under later anchors can be split apart by
loosening the threshold (see the counterexample). -/
theorem threshold_monotone_first_anchor (d : α → α → Nat) (t1 t2 : Nat)
    (x : α) (rest : List α) (hle : t1 ≤ t2) (hnd : (x :: rest).Nodup)
    (hne : rest.filter (fun b => decide (d x b ≤ t1)) ≠ []) :
    ∃ gs1 gs2,
      group_similar_images d t1 (x :: rest)
          = (x :: rest.filter (fun b => decide (d x b ≤ t1))) :: gs1 ∧
      group_similar_images d t2 (x :: rest)
          = (x :: rest.filter (fun b => decide (d x b ≤ t2))) :: gs2 ∧
      (x :: rest.filter (fun b => decide (d x b ≤ t1))).Sublist
        (x :: rest.filter (fun b => decide (d x b ≤ t2))) := by
  have hsub : (rest.filter (fun b => decide (d x b ≤ t1))).Sublist
      (rest.filter (fun b => decide (d x b ≤ t2))) := by
    apply List.monotone_filter_right
    intro a ha
    simp only [decide_eq_true_eq] at ha ⊢
    exact le_trans ha hle
  have hne2 : rest.filter (fun b => decide (d x b ≤ t2)) ≠ [] := by
    intro h0
    rw [h0] at hsub
    exact hne (List.sublist_nil.mp hsub)
  obtain ⟨gs1, h1⟩ := group_first_anchor d t1 x rest hnd hne
  obtain ⟨gs2, h2⟩ := group_first_anchor d t2 x rest hnd hne2
  exact ⟨gs1, gs2, h1, h2, hsub.cons₂ x⟩

/-- Witness for the amended C2 at a concrete list and thresholds 1 ≤ 2. -/
theorem threshold_monotone_first_anchor_witness :
    ((1 : Nat) ≤ 2 ∧ ([imgA, imgD, imgE] : List (List Bool)).Nodup ∧
        [imgD, imgE].filter
          (fun b => decide (hammingDistance imgA b ≤ 1)) ≠ []) ∧
      (∃ gs1 gs2,
        group_similar_images hammingDistance 1 [imgA, imgD, imgE]
            = (imgA :: [imgD, imgE].filter
                (fun b => decide (hammingDistance imgA b ≤ 1))) :: gs1 ∧
        group_similar_images hammingDistance 2 [imgA, imgD, imgE]
            = (imgA :: [imgD, imgE].filter
                (fun b => decide (hammingDistance imgA b ≤ 2))) :: gs2 ∧
        (imgA :: [imgD, imgE].filter
            (fun b => decide (hammingDistance imgA b ≤ 1))).Sublist
          (imgA :: [imgD, imgE].filter
            (fun b => decide (hammingDistance imgA b ≤ 2)))) :=
  ⟨⟨by decide, by decide, by decide⟩,
    threshold_monotone_first_anchor hammingDistance 1 2 imgA [imgD, imgE]
      (by decide) (by decide) (by decide)⟩

/-- C3: with no decision set in effect, the selector on a non-empty group
keeps a highest-scoring member, returns every other member in the delete
list (so delete count + 1 = group size), and breaks score ties by the
stable descending sort: the kept member is the first one in group order
attaining the maximal score, so identical inputs give identical keeps. -/
theorem select_without_decisions (score : α → ℚ) (g : List α) (h : g ≠ []) :
    ∃ b rest, select_best_image score none g = (some (b, rest), false) ∧
      b ∈ g ∧ (∀ m ∈ g, score m ≤ score b) ∧
      rest.length + 1 = g.length ∧ List.Perm (b :: rest) g ∧
      ∃ u v, g = u ++ b :: v ∧ ∀ m ∈ u, score m < score b := by
  cases hg : sortDesc score g with
  | nil =>
    exfalso
    have hp := sortDesc_perm score g
    rw [hg] at hp
    exact h hp.symm.eq_nil
  | cons b rest =>
    have hp := sortDesc_perm score g
    rw [hg] at hp
    obtain ⟨hmax, u, v, hdec, hlt⟩ := sortDesc_head_spec score g b rest hg
    refine ⟨b, rest, ?_, ?_, hmax, ?_, hp, u, v, hdec, hlt⟩
    · simp only [select_best_image, selectByScore, hg]
    · exact hp.mem_iff.mp (List.mem_cons_self b rest)
    · simpa using hp.length_eq

/-- Witness for C3 at a concrete group with a score tie. -/
theorem select_without_decisions_witness :
    (([1, 2, 3] : List Nat) ≠ []) ∧
      (∃ b rest,
        select_best_image exampleScore none [1, 2, 3] = (some (b, rest), false) ∧
        b ∈ [1, 2, 3] ∧ (∀ m ∈ [1, 2, 3], exampleScore m ≤ exampleScore b) ∧
        rest.length + 1 = [1, 2, 3].length ∧
        List.Perm (b :: rest) [1, 2, 3] ∧
        ∃ u v, [1, 2, 3] = u ++ b :: v ∧
          ∀ m ∈ u, exampleScore m < exampleScore b) :=
  ⟨by decide, select_without_decisions exampleScore [1, 2, 3] (by decide)⟩

/-- C4: with a decision set marking at least one group member keep, the
selector returns as keep the first keep-marked member in group order; the
delete list is exactly the members marked delete plus the members absent
from the decision set, in group order; further keep-marked members appear
neither as the keep nor in the delete list. -/
theorem select_with_keep_decision (score : α → ℚ)
    (m : α → Option DecisionAction) (g : List α) (k : α) (ks : List α)
    (h : g.filter (fun x => decide (m x = some DecisionAction.keep)) = k :: ks) :
    select_best_image score (some m) g
        = (some (k, g.filter (fun x => decide (¬ m x = some DecisionAction.keep))),
           false) ∧
      (∃ u v, g = u ++ k :: v ∧ m k = some DecisionAction.keep ∧
        ∀ x ∈ u, m x ≠ some DecisionAction.keep) ∧
      ∀ x ∈ g, m x = some DecisionAction.keep →
        x ∉ g.filter (fun y => decide (¬ m y = some DecisionAction.keep)) := by
  refine ⟨?_, ?_, ?_⟩
  · simp only [select_best_image, h]
  · rw [List.filter_eq_cons_iff] at h
    obtain ⟨u, v, rfl, hu, hk, -⟩ := h
    exact ⟨u, v, rfl, by simpa using hk, fun x hx => by simpa using hu x hx⟩
  · intro x hx hkeep
    simp [List.mem_filter, hkeep]

/-- Witness for C4: group [1, 2, 3] with image 2 marked keep, image 1 marked
delete, image 3 absent. -/
theorem select_with_keep_decision_witness :
    (([1, 2, 3] : List Nat).filter
        (fun x => decide (exampleDecisionMap x = some DecisionAction.keep))
        = [2]) ∧
      (select_best_image exampleScore (some exampleDecisionMap) [1, 2, 3]
          = (some (2, [1, 2, 3].filter
              (fun x => decide (¬ exampleDecisionMap x = some DecisionAction.keep))),
             false) ∧
        (∃ u v, ([1, 2, 3] : List Nat) = u ++ 2 :: v ∧
          exampleDecisionMap 2 = some DecisionAction.keep ∧
          ∀ x ∈ u, exampleDecisionMap x ≠ some DecisionAction.keep) ∧
        ∀ x ∈ ([1, 2, 3] : List Nat),
          exampleDecisionMap x = some DecisionAction.keep →
          x ∉ ([1, 2, 3] : List Nat).filter
            (fun y => decide (¬ exampleDecisionMap y = some DecisionAction.keep))) :=
  ⟨by decide,
    select_with_keep_decision exampleScore exampleDecisionMap [1, 2, 3] 2 []
      (by decide)⟩

/-- C5: when the decision set in effect marks no member of a non-empty
group keep, the selector falls back to the automatic scoring algorithm for
that group and raises the warning flag; and for every decision
configuration the selector on a non-empty group returns exactly one keep —
never zero. -/
theorem select_zero_keep_falls_back (score : α → ℚ)
    (m : α → Option DecisionAction) (g : List α) (hne : g ≠ [])
    (hnk : ∀ x ∈ g, m x ≠ some DecisionAction.keep) :
    select_best_image score (some m) g = (selectByScore score g, true) ∧
      ∀ dm : Option (α → Option DecisionAction),
        ∃ b rest w, select_best_image score dm g = (some (b, rest), w) := by
  have hfil : g.filter (fun x => decide (m x = some DecisionAction.keep)) = [] :=
    List.filter_eq_nil_iff.mpr (fun a ha => by simpa using hnk a ha)
  constructor
  · simp only [select_best_image, hfil]
  · intro dm
    match dm with
    | none =>
      obtain ⟨b, rest, hb⟩ := selectByScore_isSome score g hne
      exact ⟨b, rest, false, by simp only [select_best_image, hb]⟩
    | some m' =>
      cases hf : g.filter (fun x => decide (m' x = some DecisionAction.keep)) with
      | nil =>
        obtain ⟨b, rest, hb⟩ := selectByScore_isSome score g hne
        exact ⟨b, rest, true, by simp only [select_best_image, hf, hb]⟩
      | cons k ks =>
        exact ⟨k, g.filter (fun x => decide (¬ m' x = some DecisionAction.keep)),
          false, by simp only [select_best_image, hf]⟩

/-- Witness for C5: a delete-only decision set on the group [1, 2]. -/
theorem select_zero_keep_falls_back_witness :
    (([1, 2] : List Nat) ≠ [] ∧
        ∀ x ∈ ([1, 2] : List Nat),
          deleteOnlyMap x ≠ some DecisionAction.keep) ∧
      (select_best_image exampleScore (some deleteOnlyMap) [1, 2]
          = (selectByScore exampleScore [1, 2], true) ∧
        ∀ dm : Option (Nat → Option DecisionAction),
          ∃ b rest w,
            select_best_image exampleScore dm [1, 2] = (some (b, rest), w)) :=
  ⟨⟨by decide, by decide⟩,
    select_zero_keep_falls_back exampleScore deleteOnlyMap [1, 2]
      (by decide) (by decide)⟩

/-- C6: a missing or unparsable decisions file is fatal for the run: under
every configuration the process exits with an operator-facing error having
deleted or moved nothing — unlike per-image decode failures and per-group
decision inconsistencies, which are recovered locally. -/
theorem missing_or_invalid_decisions_fatal (execute interactive : Bool)
    (dist : α → α → Nat) (threshold : Nat) (score : α → ℚ) (images : List α)
    (exis : α → Bool) (confirm : Nat → Bool) :
    run execute interactive (some (FileRead.missing : FileRead α)) dist
        threshold score images exis confirm = ⟨true, []⟩ ∧
      run execute interactive (some (FileRead.unparsable : FileRead α)) dist
        threshold score images exis confirm = ⟨true, []⟩ :=
  ⟨rfl, rfl⟩

/-- C7: the quality scorer is total: a decode/IO failure yields the
all-zero metrics record, every successfully computed metric and the
composite score are non-negative, and hence a failed image's score of 0 is
minimal — it sorts last instead of crashing the comparison. -/
theorem quality_score_zero_on_failure_and_nonneg :
    compute_quality_score none = ⟨0, 0, 0, 0⟩ ∧
      ∀ img : ImageData,
        0 ≤ (compute_quality_score (some img)).resolution ∧
        0 ≤ (compute_quality_score (some img)).sharpness ∧
        0 ≤ (compute_quality_score (some img)).file_size ∧
        0 ≤ (compute_quality_score (some img)).score ∧
        (compute_quality_score none).score
          ≤ (compute_quality_score (some img)).score := by
  refine ⟨rfl, fun img => ?_⟩
  have hres : (0 : ℚ) ≤ (img.width * img.height : ℚ) / 1000000 := by positivity
  have hsharp : (0 : ℚ) ≤ listVar (lapList img) := listVar_nonneg _
  have hfs : (0 : ℚ) ≤ (img.fileSize : ℚ) / (1024 * 1024) := by positivity
  have hmin : (0 : ℚ) ≤ min (listVar (lapList img) / 1000) 10 :=
    le_min (div_nonneg hsharp (by norm_num)) (by norm_num)
  have hscore : (0 : ℚ) ≤ ((img.width * img.height : ℚ) / 1000000) * 0.7
      + (min (listVar (lapList img) / 1000) 10) * 0.25
      + ((img.fileSize : ℚ) / (1024 * 1024)) * 0.05 := by
    have h1 := mul_nonneg hres (by norm_num : (0 : ℚ) ≤ 0.7)
    have h2 := mul_nonneg hmin (by norm_num : (0 : ℚ) ≤ 0.25)
    have h3 := mul_nonneg hfs (by norm_num : (0 : ℚ) ≤ 0.05)
    linarith
  exact ⟨hres, hsharp, hfs, hscore, hscore⟩

/-- C8: for every successfully decoded image the composite score is exactly
`0.7·megapixels + 0.25·min(sharpness/1000, 10) + 0.05·(file size in MB)`,
with megapixels `width·height/1,000,000`, sharpness the variance of the
3×3 Laplacian `[[0,1,0],[1,-4,1],[0,1,0]]` convolved over the grayscale
image, and the size in MB the byte size over 1024². -/
theorem quality_score_formula (img : ImageData) :
    (compute_quality_score (some img)).score = specCompositeScore img ∧
      (compute_quality_score (some img)).sharpness = listVar (lapList img) ∧
      (compute_quality_score (some img)).resolution
          = (img.width * img.height : ℚ) / 1000000 ∧
      (compute_quality_score (some img)).file_size
          = (img.fileSize : ℚ) / (1024 * 1024) := by
  refine ⟨?_, rfl, rfl, rfl⟩
  show ((img.width * img.height : ℚ) / 1000000) * 0.7
      + (min (listVar (lapList img) / 1000) 10) * 0.25
      + ((img.fileSize : ℚ) / (1024 * 1024)) * 0.05 = specCompositeScore img
  unfold specCompositeScore
  ring

/-- A dry run's group-processing loop attempts no deletion. -/
theorem process_groups_dry (score : α → ℚ)
    (dm : Option (α → Option DecisionAction)) (interactive : Bool)
    (confirm : Nat → Bool) (groups : List (List α)) :
    process_groups score dm true interactive confirm groups = [] := by
  unfold process_groups
  generalize groups.enum = l
  induction l with
  | nil => rfl
  | cons p l ih =>
    rw [List.map_cons, List.flatten_cons, ih, List.append_nil]
    by_cases h : (interactive && !(confirm (p.1 + 1))) = true
    · simp [h]
    · simp [h]

/-- C9: when deletion is not requested through `--execute` or
`--interactive`, `main` computes a dry run, and a dry run deletes or moves
nothing: on the normal path hashing, grouping, scoring and review mutate
nothing, and on the decisions fast path the deletion block is never
entered. -/
theorem dry_run_never_deletes (decisionsFile : Option (FileRead α))
    (dist : α → α → Nat) (threshold : Nat) (score : α → ℚ) (images : List α)
    (exis : α → Bool) (confirm : Nat → Bool) :
    (run false false decisionsFile dist threshold score images exis
        confirm).deleted = [] := by
  cases decisionsFile with
  | none =>
    show process_groups score none (!(false || false)) false confirm
        (group_similar_images dist threshold images) = []
    exact process_groups_dry score none false confirm _
  | some fr =>
    cases fr with
    | missing => rfl
    | unparsable => rfl
    | parsed d => rfl

/-- C10 fails as stated on an inconsistent decisions document: file 0 is
keep-listed in group "1" and delete-listed in group "2", and an executing
fast-path run deletes it even though it is listed under keep. -/
theorem fast_path_keep_listed_deleted_counterexample :
    (0 : Nat) ∈ files_to_keep overlapDoc ∧
      (run true false (some (FileRead.parsed overlapDoc)) distZero 15
          exampleScore [] (fun _ => true) (fun _ => true)).deleted = [0] := by
  decide

/-- C10 (amended): a run given a parsed decisions file takes the fast path,
whose outcome is independent of the distance function, threshold, score
function and image list — no hashing, grouping or scoring happens, so the
selector's zero-keep fallback and absent-defaults-to-delete behaviours are
not exercised.  When deletion is requested, exactly the delete-listed files
that exist locally are acted upon (a dry run acts on none), and any file
not named in a delete list — keep-listed or unmentioned — is never deleted.
A file listed under both keep and delete is deleted (see the
counterexample), which is the one point where the claim as stated fails. -/
theorem fast_path_deletes_exactly_existing_delete_listed
    (execute interactive : Bool) (d : List (String × GroupDecision α))
    (dist dist' : α → α → Nat) (threshold threshold' : Nat)
    (score score' : α → ℚ) (images images' : List α) (exis : α → Bool)
    (confirm confirm' : Nat → Bool) :
    (run execute interactive (some (FileRead.parsed d)) dist threshold score
        images exis confirm).fatal = false ∧
    (run execute interactive (some (FileRead.parsed d)) dist threshold score
        images exis confirm).deleted
      = (if execute || interactive then valid_files exis d else []) ∧
    (run execute interactive (some (FileRead.parsed d)) dist threshold score
        images exis confirm).deleted
      = (run execute interactive (some (FileRead.parsed d)) dist' threshold'
          score' images' exis confirm').deleted ∧
    ∀ b, b ∉ files_to_delete d →
      b ∉ (run execute interactive (some (FileRead.parsed d)) dist threshold
          score images exis confirm).deleted := by
  refine ⟨rfl, ?_, rfl, ?_⟩
  · show process_from_decisions (!(execute || interactive)) exis d
        = if execute || interactive then valid_files exis d else []
    cases h : execute || interactive <;> rfl
  · intro b hb hmem
    have hm : b ∈ process_from_decisions (!(execute || interactive)) exis d :=
      hmem
    rw [process_from_decisions] at hm
    by_cases h : (!(execute || interactive)) = true
    · rw [if_pos h] at hm
      exact (List.not_mem_nil b) hm
    · rw [if_neg h] at hm
      exact hb (List.mem_filter.mp hm).1

end PhotoCleaner
